import Mathlib

/-!
Verification development for the dirty audio routing core.

This file gives a shallow embedding of the data model and operations of the
repository (src/dirty_core/buffer.rs, src/dirty_core/channel.rs,
src/dirty_core/core.rs) and proves the testable properties stated in the
specification against it.

Modelling conventions:
- Rust Vec<T> becomes List T; sample values (f32) are kept generic in a type
  T and instantiated with exact arithmetic (Int or Rat) in concrete
  statements, since the properties at stake are structural or algebraic.
- Rust functions that take &mut self become state-passing functions
  returning the new value; fallible functions return Except String.
- BuffVec.get_next in the source recurses without bound when the buffer
  vector has no channels, so it is embedded fuel-indexed; fuel 2 is enough
  for one next() call whenever at least one channel exists.
-/

/-- Embeds struct Buffer<T> from buffer.rs: a plain vector of samples. -/
structure Buffer (T : Type) where
  data : List T
deriving DecidableEq, Repr

/-- Embeds Buffer::new: buffer_size default-initialised samples. -/
def Buffer.new (T : Type) [Inhabited T] (buffer_size : Nat) : Buffer T :=
  ⟨List.replicate buffer_size default⟩

/-- Embeds Buffer::write: splice(.., data) replaces the whole contents,
resizing the buffer to the length of data. -/
def Buffer.write (b : Buffer T) (data : List T) : Buffer T :=
  { b with data := data }

/-- Embeds Buffer::read: returns a copy of the contents. The Rust function
wraps the copy in Ok and never fails. -/
def Buffer.read (b : Buffer T) : List T :=
  b.data

/-- Loop body of Buffer::_overdub: iterates over the buffer elements with
index i, adding data[i]; the first missing operand index aborts with the
error, leaving the elements already visited mutated.  The first component is
the loop result, the second the buffer contents after the call (the Rust
method mutates self in place even when it returns Err). -/
def Buffer.overdubLoop [Add T] (data : List T) : Nat → List T → Except String Unit × List T
  | _, [] => (Except.ok (), [])
  | i, s :: rest =>
    match data[i]? with
    | Option.none => (Except.error "mismatched buffer size", s :: rest)
    | Option.some d =>
      let p := Buffer.overdubLoop data (i + 1) rest
      (p.1, (s + d) :: p.2)

/-- Embeds Buffer::_overdub: elementwise add of data into the buffer. -/
def Buffer.overdub [Add T] (b : Buffer T) (data : List T) : Except String Unit × Buffer T :=
  let p := Buffer.overdubLoop data 0 b.data
  (p.1, ⟨p.2⟩)

/-- Embeds struct BuffVec<T> from buffer.rs: the per-channel buffers and the
read cursor (outer index over channels, inner index over samples). -/
structure BuffVec (T : Type) where
  data : List (Buffer T)
  outer_pointer : Nat
  inner_pointer : Nat
deriving DecidableEq, Repr

/-- Embeds BuffVec::new: channels zero-length buffers, cursor at the start. -/
def BuffVec.new (T : Type) [Inhabited T] (channels : Nat) : BuffVec T :=
  { data := List.replicate channels (Buffer.new T 0)
    outer_pointer := 0
    inner_pointer := 0 }

/-- Embeds BuffVec::get_buffer: data.get(index) with an out-of-bounds error,
then read(). Takes the vector by shared reference in Rust, so it is a pure
function here. -/
def BuffVec.get_buffer (v : BuffVec T) (index : Nat) : Except String (List T) :=
  match v.data[index]? with
  | Option.none => Except.error "out of bounds read"
  | Option.some b => Except.ok b.read

/-- Embeds BuffVec::get_next, fuel-indexed because the Rust function calls
itself recursively (and without bound when data is empty).  Result none
means the fuel ran out, that is, the source recursion did not return within
that many self-calls; some (o, w) means one Rust next() call returned o and
left the cursor state w. -/
def BuffVec.getNextFuel : Nat → BuffVec T → Option (Option T × BuffVec T)
  | 0, _ => Option.none
  | fuel + 1, v =>
    match v.data[v.outer_pointer]? with
    | Option.none =>
      BuffVec.getNextFuel fuel
        { v with inner_pointer := v.inner_pointer + 1, outer_pointer := 0 }
    | Option.some buf =>
      Option.some (buf.data[v.inner_pointer]?, { v with outer_pointer := v.outer_pointer + 1 })

/-- Embeds consuming the Iterator impl for BuffVec (as Iterator::collect
does): next() is called repeatedly until it yields None.  Fuel-indexed; none
means the fuel ran out.  On success it returns the yielded elements and the
final cursor state. -/
def BuffVec.collectFuel : Nat → BuffVec T → Option (List T × BuffVec T)
  | 0, _ => Option.none
  | fuel + 1, v =>
    match BuffVec.getNextFuel 2 v with
    | Option.none => Option.none
    | Option.some (Option.none, w) => Option.some ([], w)
    | Option.some (Option.some x, w) =>
      (BuffVec.collectFuel fuel w).map (fun p => (x :: p.1, p.2))

/-- Largest buffer length inside a channel list. -/
def buffersMaxLen (bufs : List (Buffer T)) : Nat :=
  bufs.foldr (fun b acc => max b.data.length acc) 0

/-- Smallest buffer length inside a nonempty channel list (0 for the empty
list). -/
def buffersMinLen : List (Buffer T) → Nat
  | [] => 0
  | [b] => b.data.length
  | b :: b2 :: rest => min b.data.length (buffersMinLen (b2 :: rest))

/-- Canonical fuel that is always enough to drain a BuffVec with at least
one channel from a fresh cursor (proved below). -/
def BuffVec.collectBound (v : BuffVec T) : Nat :=
  (buffersMaxLen v.data + 1) * (v.data.length + 1) + v.data.length + 1

/-- The observable result of Iterator::collect on a BuffVec: some list when
the iteration terminates within the canonical fuel, none otherwise. -/
def BuffVec.collect (v : BuffVec T) : Option (List T) :=
  (BuffVec.collectFuel v.collectBound v).map Prod.fst

/-- Runs n next() calls (each given fuel 2) and records every yielded
Option value together with the final state; stops early if a call runs out
of fuel. -/
def BuffVec.runNexts : Nat → BuffVec T → List (Option T) × BuffVec T
  | 0, v => ([], v)
  | n + 1, v =>
    match BuffVec.getNextFuel 2 v with
    | Option.none => ([], v)
    | Option.some (o, w) =>
      let p := BuffVec.runNexts n w
      (o :: p.1, p.2)

/-- A cursor state is exhausted when every future next() call yields None:
the iterator cannot be restarted. -/
def BuffVec.exhausted (v : BuffVec T) : Prop :=
  ∀ n o, o ∈ (BuffVec.runNexts n v).1 → o = Option.none

/-- The source get_next never returns from this state, whatever recursion
depth is allowed. -/
def BuffVec.getNextDiverges (v : BuffVec T) : Prop :=
  ∀ fuel, BuffVec.getNextFuel fuel v = Option.none

/-- Embeds Iterator::step_by(n) over a slice: the first element is yielded,
then n - 1 elements are skipped after every yielded element.  The skip
argument counts the elements still to be dropped before the next yield.
(Rust panics on n = 0; deinterlace only calls step_by with the channel count
of an existing buffer, hence n ≥ 1.) -/
def stepByAux (n : Nat) : Nat → List T → List T
  | _, [] => []
  | 0, x :: xs => x :: stepByAux n (n - 1) xs
  | k + 1, _ :: xs => stepByAux n k xs

def stepBy (n : Nat) (l : List T) : List T := stepByAux n 0 l

/-- Skipping k elements first is dropping them first. -/
theorem stepByAux_eq_drop (n : Nat) :
    ∀ (l : List T) (k : Nat), stepByAux n k l = stepByAux n 0 (l.drop k) := by
  intro l
  induction l with
  | nil => intro k; simp [stepByAux]
  | cons x xs ih =>
    intro k
    cases k with
    | zero => rfl
    | succ k =>
      show stepByAux n k xs = _
      rw [ih k]
      rfl

/-- The cons unfolding of the stride: yield the head, continue after
dropping n - 1 elements. -/
theorem stepBy_cons (n : Nat) (x : T) (xs : List T) :
    stepBy n (x :: xs) = x :: stepBy n (xs.drop (n - 1)) := by
  show stepByAux n 0 (x :: xs) = x :: stepByAux n 0 (xs.drop (n - 1))
  show x :: stepByAux n (n - 1) xs = _
  rw [stepByAux_eq_drop n xs (n - 1)]

/-- Result of a Rust unwrap/expect style operation, or of any code that can
panic: either the panic, or the computed value. -/
inductive PanicOr (α : Type)
  | panicked
  | value (a : α)
deriving DecidableEq, Repr

/-- Embeds slice::split_at(mid): the pair of the prefix up to mid and the
suffix from mid on.  The Rust method panics when mid exceeds the slice
length. -/
def split_at (mid : Nat) (data : List T) : PanicOr (List T × List T) :=
  if mid ≤ data.length then PanicOr.value (data.take mid, data.drop mid)
  else PanicOr.panicked

/-- Loop body of BuffVec::deinterlace: iter_mut().enumerate().for_each
writes into buffer i the suffix data.split_at(i).1, taken with stride
num_channels (step_by).  split_at panics as soon as the channel index
exceeds the input length, so the loop yields a value only if every channel
index stays in range — with c channels this fails whenever
c > data.length + 1. -/
def BuffVec.deinterlaceLoop (data : List T) (num_channels : Nat) :
    Nat → List (Buffer T) → PanicOr (List (Buffer T))
  | _, [] => PanicOr.value []
  | i, b :: rest =>
    match split_at i data with
    | PanicOr.panicked => PanicOr.panicked
    | PanicOr.value parts =>
      match BuffVec.deinterlaceLoop data num_channels (i + 1) rest with
      | PanicOr.panicked => PanicOr.panicked
      | PanicOr.value written =>
        PanicOr.value (b.write (stepBy num_channels parts.2) :: written)

/-- Embeds BuffVec::deinterlace: start from BuffVec::new(num_channels) and
write each channel with its strided slice of the interleaved input; the
whole call panics when any split_at does. -/
def BuffVec.deinterlace [Inhabited T] (data : List T) (num_channels : Nat) :
    PanicOr (BuffVec T) :=
  let temp_buf := BuffVec.new T num_channels
  match BuffVec.deinterlaceLoop data num_channels 0 temp_buf.data with
  | PanicOr.panicked => PanicOr.panicked
  | PanicOr.value written => PanicOr.value { temp_buf with data := written }

/-- Derived description (not part of the embedding, connected to it by
deinterlaceLoop_value below): the channel list a successful deinterlace run
writes, channel i holding the strided suffix of the input from offset i. -/
def deinterlacedChannels (data : List T) (num_channels : Nat) :
    Nat → List (Buffer T) → List (Buffer T)
  | _, [] => []
  | i, b :: rest =>
    b.write (stepBy num_channels (data.drop i)) ::
      deinterlacedChannels data num_channels (i + 1) rest

/-- Derived description of the Buffer Vector a successful deinterlace run
returns. -/
def deinterlacedVec [Inhabited T] (data : List T) (num_channels : Nat) : BuffVec T :=
  let temp_buf := BuffVec.new T num_channels
  { temp_buf with data := deinterlacedChannels data num_channels 0 temp_buf.data }

/-- All channel buffers of a BuffVec share one logical length (the Buffer
Vector invariant stated by the specification). -/
def BuffVec.uniformLengths (v : BuffVec T) : Prop :=
  ∃ m, ∀ b ∈ v.data, b.data.length = m

/-- Drained row fragment at sample index i: the channel-major pass visits
the buffers left to right and stops at the first buffer that has no sample
at index i. -/
def rowTaken (i : Nat) (bufs : List (Buffer T)) : List T :=
  (bufs.takeWhile (fun b => decide (i < b.data.length))).filterMap (fun b => b.data[i]?)

/-- Auxiliary bound lemma for the termination of idealDrain. -/
theorem length_le_buffersMaxLen (bufs : List (Buffer T)) (b : Buffer T) (hb : b ∈ bufs) :
    b.data.length ≤ buffersMaxLen bufs := by
  induction bufs with
  | nil => cases hb
  | cons hd tl ih =>
    simp only [buffersMaxLen, List.foldr_cons]
    rcases List.mem_cons.mp hb with h | h
    · subst h; exact Nat.le_max_left _ _
    · exact Nat.le_trans (ih h) (Nat.le_max_right _ _)

/-- Reference description of a full channel-major drain starting at sample
index i: while every buffer still has a sample at index i the whole row is
emitted, and the first incomplete row is emitted only up to the first
missing sample, where iteration stops. -/
def idealDrain (bufs : List (Buffer T)) (i : Nat) : List T :=
  if h : 0 < bufs.length ∧ ∀ b ∈ bufs, i < b.data.length then
    bufs.filterMap (fun b => b.data[i]?) ++ idealDrain bufs (i + 1)
  else
    rowTaken i bufs
termination_by buffersMaxLen bufs - i
decreasing_by
  rcases h with ⟨hne, hall⟩
  cases bufs with
  | nil => simp at hne
  | cons hd tl =>
    have h1 : i < hd.data.length := hall hd (List.mem_cons_self hd tl)
    have h2 := length_le_buffersMaxLen (hd :: tl) hd (List.mem_cons_self hd tl)
    omega

/-! ## Model of the channel actor (src/dirty_core/channel.rs) and the
routing types of src/dirty_core/core.rs. -/

/-- Embeds enum PhysicalAudioIO from core.rs. -/
inductive PhysicalAudioIO
  | mono (channel_index : Nat)
  | stereo (left_index right_index : Nat)
deriving DecidableEq, Repr

/-- Embeds enum AudioIO from core.rs. -/
inductive AudioIO
  | none
  | hardware (p : PhysicalAudioIO)
deriving DecidableEq, Repr

/-- Abstraction of a tokio mpsc Sender<OutputSystemMessage>: the only fact
the channel code observes about the handle is whether the receiving mailbox
has been closed (send returns Err).  A handle is identified by an id so that
a freshly obtained handle can be distinguished from the stale one. -/
structure Sink where
  id : Nat
  closed : Bool
deriving DecidableEq, Repr

/-- Messages leaving the process_audio closure, in emission order: an
Overdub batch delivered to the output sink, a GetOutputSystem lookup sent to
the core message bus, and a SetOuptutSystem message the channel sends to its
own mailbox with the fresh handle. -/
inductive SentMessage (F : Type)
  | overdub (samples : List F)
  | getOutputSystem
  | setOuptutSystemSelf (fresh : Sink)
deriving DecidableEq, Repr

/-- Outcome of the closure run under spawn_blocking: either it panicked
(the JoinHandle carries the panic, which process_audio discards with let _)
or it completed after sending the listed messages. -/
inductive TaskStep (F : Type)
  | panicked
  | completed (sent : List (SentMessage F))
deriving DecidableEq, Repr

/-- Option::unwrap. -/
def unwrapOption : Option α → PanicOr α
  | Option.none => PanicOr.panicked
  | Option.some a => PanicOr.value a

/-- Result::unwrap. -/
def unwrapExcept : Except ε α → PanicOr α
  | Except.error _ => PanicOr.panicked
  | Except.ok a => PanicOr.value a

/-- Embeds the input-selection match of Channel::process_audio: None routes
to no input, Mono(c) reads channel c (unwrapping the Result), Stereo(l, _r)
reads only the left channel (the stereo merge is not implemented in the
source). -/
def selectInput (input : AudioIO) (data : BuffVec F) : PanicOr (Option (List F)) :=
  match input with
  | AudioIO.none => PanicOr.value Option.none
  | AudioIO.hardware ( PhysicalAudioIO.mono c) =>
    match unwrapExcept (data.get_buffer c) with
    | PanicOr.panicked => PanicOr.panicked
    | PanicOr.value v => PanicOr.value (Option.some v)
  | AudioIO.hardware ( PhysicalAudioIO.stereo l _r) =>
    match unwrapExcept (data.get_buffer l) with
    | PanicOr.panicked => PanicOr.panicked
    | PanicOr.value v => PanicOr.value (Option.some v)

/-- Embeds the gain pass of Channel::process_audio (and equally the volume
multiplication in the output callback of DirtyCore::run): every sample is
multiplied in place by the channel volume. -/
def applyGain [Mul F] (channel_volume : F) (input_data : List F) : List F :=
  input_data.map (fun s => s * channel_volume)

/-- Embeds the forwarding block of Channel::process_audio.  With no output
system nothing happens.  With a live sink the Overdub batch is delivered.
With a closed sink (send returns Err) the channel asks the core bus for the
current output system, receives fresh on the oneshot, and mails
SetOuptutSystem(fresh) to itself; the Overdub batch is dropped, not
retried. -/
def forwardOutput (output_system : Option Sink) (input_data : List F) (fresh : Sink) :
    List (SentMessage F) :=
  match output_system with
  | Option.none => []
  | Option.some tx =>
    if tx.closed then
      [SentMessage.getOutputSystem, SentMessage.setOuptutSystemSelf fresh]
    else
      [SentMessage.overdub input_data]

/-- Embeds the spawn_blocking closure of Channel::process_audio end to end:
select the input (two unwraps: Result then Option), apply the gain, forward
the result.  fresh stands for the handle the core bus would reply with if a
reconnect lookup happens. -/
def processAudioTask [Mul F] (input : AudioIO) (channel_volume : F)
    (data : BuffVec F) (output_system : Option Sink) (fresh : Sink) : TaskStep F :=
  match selectInput input data with
  | PanicOr.panicked => TaskStep.panicked
  | PanicOr.value od =>
    match unwrapOption od with
    | PanicOr.panicked => TaskStep.panicked
    | PanicOr.value input_data =>
      TaskStep.completed (forwardOutput output_system (applyGain channel_volume input_data) fresh)

/-- Embeds the mutable state of struct Channel (channel.rs), without the
mailbox plumbing: name, volume, panning, input and output routing, and the
optional output sink handle. -/
structure ChannelState (F : Type) where
  name : String
  volume : F
  panning : F
  input : AudioIO
  output : AudioIO
  output_system : Option Sink
deriving DecidableEq, Repr

/-- Embeds Channel::new field initialisation: empty name, volume 1, panning
0, both routings None, no output system. -/
def ChannelState.new [One F] [Zero F] : ChannelState F :=
  { name := ""
    volume := 1
    panning := 0
    input := AudioIO.none
    output := AudioIO.none
    output_system := Option.none }

/-- Embeds enum ChannelMessage (channel.rs).  The oneshot reply senders
carried by the Get variants are left implicit: a reply is modelled as the
value returned by the step function.  RegisterMaster is declared in the
source but its handler is todo!(), and NewBuffer processing is modelled by
processAudioTask. -/
inductive ChannelMessage (F : Type)
  | quit
  | getName
  | setName (name : String)
  | getVolume
  | setVolume (volume : F)
  | getPanning
  | setPanning (panning : F)
  | getInput
  | setInput (input : AudioIO)
  | getOutput
  | setOutput (output : AudioIO)
  | setOuptutSystem (sender : Sink)
  | newBuffer (data : BuffVec F)
deriving DecidableEq, Repr

/-- Value sent back on the oneshot reply channel of a Get message. -/
inductive ChannelReply (F : Type)
  | name (value : String)
  | volume (value : F)
  | panning (value : F)
  | input (value : AudioIO)
  | output (value : AudioIO)
deriving DecidableEq, Repr

/-- Embeds one iteration of the match in Channel::run_channel for the
control messages: the new channel state and the reply (if the message was a
Get).  Quit breaks the receive loop and NewBuffer spawns process_audio
(modelled by processAudioTask); both leave the state unchanged and reply
nothing. -/
def channelStep (st : ChannelState F) : ChannelMessage F → ChannelState F × Option (ChannelReply F)
  | ChannelMessage.quit => (st, Option.none)
  | ChannelMessage.getName => (st, Option.some (ChannelReply.name st.name))
  | ChannelMessage.setName name => ({ st with name := name }, Option.none)
  | ChannelMessage.getVolume => (st, Option.some (ChannelReply.volume st.volume))
  | ChannelMessage.setVolume volume => ({ st with volume := volume }, Option.none)
  | ChannelMessage.getPanning => (st, Option.some (ChannelReply.panning st.panning))
  | ChannelMessage.setPanning panning => ({ st with panning := panning }, Option.none)
  | ChannelMessage.getInput => (st, Option.some (ChannelReply.input st.input))
  | ChannelMessage.setInput input => ({ st with input := input }, Option.none)
  | ChannelMessage.getOutput => (st, Option.some (ChannelReply.output st.output))
  | ChannelMessage.setOutput output => ({ st with output := output }, Option.none)
  | ChannelMessage.setOuptutSystem sender => ({ st with output_system := Option.some sender }, Option.none)
  | ChannelMessage.newBuffer _ => (st, Option.none)

/-- Embeds the NewBuffer arm of Channel::run_channel: process_audio reads
the state (it takes self by shared reference), runs the closure under
spawn_blocking, and discards the JoinHandle result with let _, so the actor
state is unchanged even when the closure panicked. -/
def handleNewBuffer [Mul F] (st : ChannelState F) (data : BuffVec F) (fresh : Sink) :
    ChannelState F × TaskStep F :=
  (st, processAudioTask st.input st.volume data st.output_system fresh)

/-! ## Lemmas about stepBy and deinterlace -/

/-- Element i of a strided slice is element i * n of the original slice. -/
theorem stepBy_getElem? (n : Nat) (hn : 1 ≤ n) (i : Nat) :
    ∀ (l : List T), (stepBy n l)[i]? = l[i * n]? := by
  induction i with
  | zero =>
    intro l
    cases l with
    | nil => rfl
    | cons x xs =>
      rw [stepBy_cons]
      simp
  | succ i ih =>
    intro l
    cases l with
    | nil => rfl
    | cons x xs =>
      rw [stepBy_cons]
      have h1 : (x :: stepBy n (xs.drop (n - 1)))[i + 1]? = (stepBy n (xs.drop (n - 1)))[i]? := by
        simp
      rw [h1, ih (xs.drop (n - 1)), List.getElem?_drop]
      have hr : (i + 1) * n = i * n + n := by ring
      have h2 : (x :: xs)[(i + 1) * n]? = xs[(i + 1) * n - 1]? := by
        have h3 : (i + 1) * n = (i * n + (n - 1)) + 1 := by omega
        rw [h3]
        simp
      rw [h2]
      congr 1
      omega

/-- Length of a strided slice: ceiling of length / n. -/
theorem stepBy_length (n : Nat) (hn : 1 ≤ n) :
    ∀ (k : Nat) (l : List T), l.length ≤ k →
      (stepBy n l).length = (l.length + (n - 1)) / n := by
  intro k
  induction k with
  | zero =>
    intro l hl
    cases l with
    | nil => simp [stepBy, stepByAux, Nat.div_eq_of_lt (by omega : n - 1 < n)]
    | cons x xs => simp at hl
  | succ k ih =>
    intro l hl
    cases l with
    | nil => simp [stepBy, stepByAux, Nat.div_eq_of_lt (by omega : n - 1 < n)]
    | cons x xs =>
      rw [stepBy_cons]
      have hdrop : (xs.drop (n - 1)).length ≤ k := by
        simp only [List.length_drop]
        simp only [List.length_cons] at hl
        omega
      have hrhs : (x :: xs).length + (n - 1) = xs.length + n := by
        simp only [List.length_cons]; omega
      rw [List.length_cons, ih (xs.drop (n - 1)) hdrop, hrhs,
        Nat.add_div_right _ (by omega : 0 < n)]
      simp only [List.length_drop]
      rcases Nat.lt_or_ge xs.length (n - 1) with hc | hc
      · have h0 : xs.length - (n - 1) = 0 := by omega
        have h1 : xs.length / n = 0 := Nat.div_eq_of_lt (by omega)
        rw [h0, h1]
        simp [Nat.div_eq_of_lt (by omega : n - 1 < n)]
      · have h0 : xs.length - (n - 1) + (n - 1) = xs.length := by omega
        rw [h0]

/-- Whenever every channel index stays within the input length, the
deinterlace loop completes without panicking and writes exactly the derived
channel description. -/
theorem deinterlaceLoop_value (data : List T) (c : Nat) :
    ∀ (bs : List (Buffer T)) (i : Nat), i + bs.length ≤ data.length + 1 →
      BuffVec.deinterlaceLoop data c i bs =
        PanicOr.value (deinterlacedChannels data c i bs) := by
  intro bs
  induction bs with
  | nil => intro i _; rfl
  | cons b rest ih =>
    intro i h
    have hi : i ≤ data.length := by
      simp only [List.length_cons] at h
      omega
    have hsplit : split_at i data = PanicOr.value (data.take i, data.drop i) := by
      unfold split_at
      rw [if_pos hi]
    conv_lhs => unfold BuffVec.deinterlaceLoop
    rw [hsplit, ih (i + 1) (by simp only [List.length_cons] at h; omega)]
    rfl

/-- As soon as some channel index exceeds the input length, the deinterlace
loop panics in split_at. -/
theorem deinterlaceLoop_panics (data : List T) (c : Nat) :
    ∀ (bs : List (Buffer T)) (i : Nat), (∃ j < bs.length, data.length < i + j) →
      BuffVec.deinterlaceLoop data c i bs = PanicOr.panicked := by
  intro bs
  induction bs with
  | nil =>
    rintro i ⟨j, hj, -⟩
    simp at hj
  | cons b rest ih =>
    rintro i ⟨j, hj, hlen⟩
    by_cases hi : i ≤ data.length
    · have hj1 : 1 ≤ j := by omega
      have hrec := ih (i + 1)
        ⟨j - 1, by simp only [List.length_cons] at hj; omega, by omega⟩
      have hsplit : split_at i data = PanicOr.value (data.take i, data.drop i) := by
        unfold split_at
        rw [if_pos hi]
      conv_lhs => unfold BuffVec.deinterlaceLoop
      rw [hsplit, hrec]
    · have hsplit : split_at i data = PanicOr.panicked := by
        unfold split_at
        rw [if_neg hi]
      conv_lhs => unfold BuffVec.deinterlaceLoop
      rw [hsplit]


/-- For channel counts up to input length + 1 deinterlace completes and
returns the derived vector. -/
theorem deinterlace_value [Inhabited T] (data : List T) (c : Nat)
    (hc : c ≤ data.length + 1) :
    BuffVec.deinterlace data c = PanicOr.value (deinterlacedVec data c) := by
  show (match BuffVec.deinterlaceLoop data c 0 (BuffVec.new T c).data with
    | PanicOr.panicked => PanicOr.panicked
    | PanicOr.value written =>
      PanicOr.value { BuffVec.new T c with data := written }) = _
  rw [deinterlaceLoop_value data c (BuffVec.new T c).data 0 (by
    show 0 + (List.replicate c (Buffer.new T 0)).length ≤ data.length + 1
    simp only [List.length_replicate]
    omega)]
  rfl

/-- For channel counts past input length + 1 deinterlace panics: channel
index data.length + 1 is reached and split_at aborts there. -/
theorem deinterlace_panics [Inhabited T] (data : List T) (c : Nat)
    (hc : data.length + 1 < c) :
    BuffVec.deinterlace data c = PanicOr.panicked := by
  show (match BuffVec.deinterlaceLoop data c 0 (BuffVec.new T c).data with
    | PanicOr.panicked => PanicOr.panicked
    | PanicOr.value written =>
      PanicOr.value { BuffVec.new T c with data := written }) = _
  rw [deinterlaceLoop_panics data c (BuffVec.new T c).data 0
    ⟨data.length + 1, by
      show data.length + 1 < (List.replicate c (Buffer.new T 0)).length
      simp only [List.length_replicate]
      omega, by omega⟩]

/-- The derived channel description keeps the number of channels. -/
theorem deinterlacedChannels_length (data : List T) (c : Nat) :
    ∀ (bs : List (Buffer T)) (i : Nat),
      (deinterlacedChannels data c i bs).length = bs.length := by
  intro bs
  induction bs with
  | nil => intro i; rfl
  | cons b rest ih =>
    intro i
    simp [deinterlacedChannels, ih]

/-- Channel j of the derived description started at offset i holds the
strided slice of data starting at offset i + j. -/
theorem deinterlacedChannels_getElem? (data : List T) (c : Nat) :
    ∀ (bs : List (Buffer T)) (i j : Nat),
      (deinterlacedChannels data c i bs)[j]? =
        bs[j]?.map (fun b => b.write (stepBy c (data.drop (i + j)))) := by
  intro bs
  induction bs with
  | nil => intro i j; simp [deinterlacedChannels]
  | cons b rest ih =>
    intro i j
    cases j with
    | zero => simp [deinterlacedChannels]
    | succ j =>
      simp only [deinterlacedChannels, List.getElem?_cons_succ, ih (i + 1) j]
      have : i + 1 + j = i + (j + 1) := by omega
      rw [this]

/-- The channel list of a successful deinterlace run, elementwise. -/
theorem deinterlacedVec_data_getElem? [Inhabited T] (data : List T) (c : Nat) (j : Nat) :
    (deinterlacedVec data c).data[j]? =
      if j < c then Option.some ⟨stepBy c (data.drop j)⟩ else Option.none := by
  unfold deinterlacedVec BuffVec.new
  simp only [deinterlacedChannels_getElem?]
  rcases Nat.lt_or_ge j c with h | h
  · rw [List.getElem?_replicate, if_pos h, if_pos h]
    simp [Buffer.new, Buffer.write]
  · rw [List.getElem?_replicate, if_neg (by omega), if_neg (by omega)]
    rfl

/-- A successful deinterlace run has one buffer per channel and a fresh
cursor. -/
theorem deinterlacedVec_shape [Inhabited T] (data : List T) (c : Nat) :
    (deinterlacedVec data c).data.length = c ∧
      (deinterlacedVec data c).outer_pointer = 0 ∧
      (deinterlacedVec data c).inner_pointer = 0 := by
  refine ⟨?_, rfl, rfl⟩
  unfold deinterlacedVec BuffVec.new
  simp [deinterlacedChannels_length]

/-! ## Correspondence between the fuel-indexed drain and idealDrain -/

/-- A successful index lookup exposes the list as a cons at that point. -/
theorem drop_cons_of_getElem? (l : List α) (j : Nat) (a : α) (h : l[j]? = Option.some a) :
    l.drop j = a :: l.drop (j + 1) := by
  have hj : j < l.length := by
    by_contra hc
    rw [List.getElem?_eq_none_iff.mpr (by omega)] at h
    cases h
  have hv : l[j] = a := by
    have hg := List.getElem?_eq_getElem hj
    rw [hg] at h
    cases h
    rfl
  rw [List.drop_eq_getElem_cons hj, hv]

/-- One collect step when the outer pointer hits an existing channel: the
sample under the cursor decides between stopping and continuing. -/
theorem collectFuel_step (bufs : List (Buffer T)) (j i fuel : Nat) (buf : Buffer T)
    (hj : bufs[j]? = Option.some buf) :
    BuffVec.collectFuel (fuel + 1) ⟨bufs, j, i⟩ =
      match buf.data[i]? with
      | Option.none => Option.some ([], ⟨bufs, j + 1, i⟩)
      | Option.some x =>
        (BuffVec.collectFuel fuel ⟨bufs, j + 1, i⟩).map (fun p => (x :: p.1, p.2)) := by
  have hnext : BuffVec.getNextFuel 2 (⟨bufs, j, i⟩ : BuffVec T) =
      Option.some (buf.data[i]?, ⟨bufs, j + 1, i⟩) := by
    unfold BuffVec.getNextFuel
    simp [hj]
  conv_lhs => unfold BuffVec.collectFuel
  rw [hnext]
  cases buf.data[i]? <;> rfl

/-- When the outer pointer has run past the channels, one next() call wraps:
the state behaves exactly like a fresh row at the next sample index. -/
theorem collectFuel_wrap (bufs : List (Buffer T)) (j i fuel : Nat)
    (hj : bufs[j]? = Option.none) (hne : bufs ≠ []) :
    BuffVec.collectFuel (fuel + 1) ⟨bufs, j, i⟩ =
      BuffVec.collectFuel (fuel + 1) ⟨bufs, 0, i + 1⟩ := by
  cases bufs with
  | nil => exact absurd rfl hne
  | cons b0 rest =>
    have hnext1 : BuffVec.getNextFuel 2 (⟨b0 :: rest, j, i⟩ : BuffVec T) =
        Option.some (b0.data[i + 1]?, ⟨b0 :: rest, 1, i + 1⟩) := by
      unfold BuffVec.getNextFuel
      rw [show ((b0 :: rest)[j]? : Option (Buffer T)) = Option.none from hj]
      unfold BuffVec.getNextFuel
      simp
    have hnext2 : BuffVec.getNextFuel 2 (⟨b0 :: rest, 0, i + 1⟩ : BuffVec T) =
        Option.some (b0.data[i + 1]?, ⟨b0 :: rest, 1, i + 1⟩) := by
      unfold BuffVec.getNextFuel
      simp
    unfold BuffVec.collectFuel
    rw [hnext1, hnext2]

/-- Draining a row that contains an exhausted channel at or after the
cursor: the drain stops inside the row and never wraps again. -/
theorem collectFuel_rowStop (bufs : List (Buffer T)) (i : Nat) :
    ∀ (d j fuel : Nat), bufs.length - j ≤ d →
      (∃ b ∈ bufs.drop j, b.data.length ≤ i) →
      bufs.length - j + 1 ≤ fuel →
      ∃ w, BuffVec.collectFuel fuel ⟨bufs, j, i⟩ =
        Option.some (rowTaken i (bufs.drop j), w) ∧ w.data = bufs ∧
        ∃ b ∈ bufs, b.data.length ≤ w.inner_pointer := by
  intro d
  induction d with
  | zero =>
    intro j fuel hd hex _
    rcases hex with ⟨b, hb, _⟩
    rw [List.drop_eq_nil_of_le (by omega)] at hb
    cases hb
  | succ d ih =>
    intro j fuel hd hex hfuel
    rcases Nat.exists_eq_add_of_le hfuel with ⟨f, hf⟩
    rcases hj : bufs[j]? with _ | buf
    · rcases hex with ⟨b, hb, _⟩
      rw [List.drop_eq_nil_of_le (List.getElem?_eq_none_iff.mp hj)] at hb
      cases hb
    · have hjlt : j < bufs.length := by
        by_contra hc
        rw [List.getElem?_eq_none_iff.mpr (by omega)] at hj
        cases hj
      have hdrop := drop_cons_of_getElem? bufs j buf hj
      rcases hbi : buf.data[i]? with _ | x
      · have hlen : buf.data.length ≤ i := List.getElem?_eq_none_iff.mp hbi
        have hfuel1 : ∃ f1, fuel = f1 + 1 := ⟨fuel - 1, by omega⟩
        rcases hfuel1 with ⟨f1, rfl⟩
        rw [collectFuel_step bufs j i f1 buf hj, hbi]
        refine ⟨⟨bufs, j + 1, i⟩, ?_, rfl, buf, List.getElem?_mem hj, hlen⟩
        rw [hdrop]
        unfold rowTaken
        rw [List.takeWhile_cons]
        simp [hlen, Nat.not_lt.mpr hlen]
      · have hlx : i < buf.data.length := by
          by_contra hc
          rw [List.getElem?_eq_none_iff.mpr (by omega)] at hbi
          cases hbi
        have hfuel1 : ∃ f1, fuel = f1 + 1 := ⟨fuel - 1, by omega⟩
        rcases hfuel1 with ⟨f1, rfl⟩
        rw [collectFuel_step bufs j i f1 buf hj, hbi]
        have hex2 : ∃ b ∈ bufs.drop (j + 1), b.data.length ≤ i := by
          rcases hex with ⟨b, hb, hbl⟩
          rw [hdrop] at hb
          rcases List.mem_cons.mp hb with rfl | hb2
          · omega
          · exact ⟨b, hb2, hbl⟩
        rcases ih (j + 1) f1 (by omega) hex2 (by omega) with ⟨w, hw, hwd, hwe⟩
        refine ⟨w, ?_, hwd, hwe⟩
        rw [hw, hdrop]
        simp [rowTaken, List.takeWhile_cons, List.filterMap_cons, hlx, hbi]

/-- Draining a row in which every channel still has a sample: the whole row
is yielded and the drain continues with the next sample index. -/
theorem collectFuel_rowFull (bufs : List (Buffer T)) (i : Nat) (rest : List T)
    (hne : bufs ≠ [])
    (hfull : ∀ b ∈ bufs, i < b.data.length)
    (Cfuel : Nat) (hC : 1 ≤ Cfuel)
    (hcont : ∀ fuel, Cfuel ≤ fuel →
      ∃ w, BuffVec.collectFuel fuel ⟨bufs, 0, i + 1⟩ = Option.some (rest, w) ∧
        w.data = bufs ∧ ∃ b ∈ bufs, b.data.length ≤ w.inner_pointer) :
    ∀ (d j fuel : Nat), bufs.length - j ≤ d →
      (bufs.length - j) + Cfuel ≤ fuel →
      ∃ w, BuffVec.collectFuel fuel ⟨bufs, j, i⟩ =
        Option.some ((bufs.drop j).filterMap (fun b => b.data[i]?) ++ rest, w) ∧
        w.data = bufs ∧ ∃ b ∈ bufs, b.data.length ≤ w.inner_pointer := by
  intro d
  induction d with
  | zero =>
    intro j fuel hd hfuel
    have hj : bufs[j]? = Option.none := List.getElem?_eq_none_iff.mpr (by omega)
    have hfuel1 : ∃ f1, fuel = f1 + 1 := ⟨fuel - 1, by omega⟩
    rcases hfuel1 with ⟨f1, rfl⟩
    rw [collectFuel_wrap bufs j i f1 hj hne]
    rcases hcont (f1 + 1) (by omega) with ⟨w, hw, hwd, hwe⟩
    refine ⟨w, ?_, hwd, hwe⟩
    rw [hw, List.drop_eq_nil_of_le (by omega : bufs.length ≤ j)]
    rfl
  | succ d ih =>
    intro j fuel hd hfuel
    rcases hj : bufs[j]? with _ | buf
    · have hjge : bufs.length ≤ j := List.getElem?_eq_none_iff.mp hj
      have hfuel1 : ∃ f1, fuel = f1 + 1 := ⟨fuel - 1, by omega⟩
      rcases hfuel1 with ⟨f1, rfl⟩
      rw [collectFuel_wrap bufs j i f1 hj hne]
      rcases hcont (f1 + 1) (by omega) with ⟨w, hw, hwd, hwe⟩
      refine ⟨w, ?_, hwd, hwe⟩
      rw [hw, List.drop_eq_nil_of_le (by omega : bufs.length ≤ j)]
      rfl
    · have hjlt : j < bufs.length := by
        by_contra hc
        rw [List.getElem?_eq_none_iff.mpr (by omega)] at hj
        cases hj
      have hdrop := drop_cons_of_getElem? bufs j buf hj
      have hmem : buf ∈ bufs := List.getElem?_mem hj
      have hlx : i < buf.data.length := hfull buf hmem
      rcases hbi : buf.data[i]? with _ | x
      · rw [List.getElem?_eq_none_iff] at hbi
        omega
      · have hfuel1 : ∃ f1, fuel = f1 + 1 := ⟨fuel - 1, by omega⟩
        rcases hfuel1 with ⟨f1, rfl⟩
        rw [collectFuel_step bufs j i f1 buf hj, hbi]
        rcases ih (j + 1) f1 (by omega) (by omega) with ⟨w, hw, hwd, hwe⟩
        refine ⟨w, ?_, hwd, hwe⟩
        rw [hw, hdrop]
        simp [List.filterMap_cons, hbi]

/-- Main correspondence: from a fresh outer pointer, draining a nonempty
buffer list with the canonical amount of fuel succeeds and yields idealDrain;
the final state still holds the same channels and its inner pointer has
passed the end of some channel. -/
theorem collectFuel_idealDrain (bufs : List (Buffer T)) (hne : bufs ≠ []) :
    ∀ (d i fuel : Nat), buffersMaxLen bufs - i ≤ d →
      (buffersMaxLen bufs + 1 - i) * (bufs.length + 1) + bufs.length + 1 ≤ fuel →
      ∃ w, BuffVec.collectFuel fuel ⟨bufs, 0, i⟩ =
        Option.some (idealDrain bufs i, w) ∧ w.data = bufs ∧
        ∃ b ∈ bufs, b.data.length ≤ w.inner_pointer := by
  intro d
  induction d with
  | zero =>
    intro i fuel hd hfuel
    have hnotfull : ¬ ∀ b ∈ bufs, i < b.data.length := by
      intro hall
      cases bufs with
      | nil => exact absurd rfl hne
      | cons b0 tl =>
        have h1 := hall b0 (List.mem_cons_self b0 tl)
        have h2 := length_le_buffersMaxLen (b0 :: tl) b0 (List.mem_cons_self b0 tl)
        omega
    rw [idealDrain, dif_neg (by tauto)]
    have hex : ∃ b ∈ bufs.drop 0, b.data.length ≤ i := by
      push_neg at hnotfull
      rcases hnotfull with ⟨b, hb, hbl⟩
      exact ⟨b, by simpa using hb, by omega⟩
    rcases collectFuel_rowStop bufs i bufs.length 0 fuel (by omega) hex (by omega) with
      ⟨w, hw, hwd, hwe⟩
    rw [List.drop_zero] at hw
    exact ⟨w, hw, hwd, hwe⟩
  | succ d ih =>
    intro i fuel hd hfuel
    by_cases hfull : ∀ b ∈ bufs, i < b.data.length
    · have hlenpos : 0 < bufs.length := by
        cases bufs with
        | nil => exact absurd rfl hne
        | cons b0 tl => simp
      have himax : i < buffersMaxLen bufs := by
        cases bufs with
        | nil => exact absurd rfl hne
        | cons b0 tl =>
          have h1 := hfull b0 (List.mem_cons_self b0 tl)
          have h2 := length_le_buffersMaxLen (b0 :: tl) b0 (List.mem_cons_self b0 tl)
          omega
      rw [idealDrain, dif_pos ⟨hlenpos, hfull⟩]
      have hCdef : (buffersMaxLen bufs + 1 - i) * (bufs.length + 1) =
          (buffersMaxLen bufs + 1 - (i + 1)) * (bufs.length + 1) + (bufs.length + 1) := by
        have h1 : buffersMaxLen bufs + 1 - i = (buffersMaxLen bufs + 1 - (i + 1)) + 1 := by
          omega
        rw [h1, Nat.add_mul, Nat.one_mul]
      rcases collectFuel_rowFull bufs i (idealDrain bufs (i + 1)) hne hfull
        ((buffersMaxLen bufs + 1 - (i + 1)) * (bufs.length + 1) + bufs.length + 1)
        (by omega)
        (fun fuel2 hf2 => ih (i + 1) fuel2 (by omega) hf2)
        bufs.length 0 fuel (by omega) (by omega) with ⟨w, hw, hwd, hwe⟩
      rw [List.drop_zero] at hw
      exact ⟨w, hw, hwd, hwe⟩
    · rw [idealDrain, dif_neg (by tauto)]
      have hex : ∃ b ∈ bufs.drop 0, b.data.length ≤ i := by
        push_neg at hfull
        rcases hfull with ⟨b, hb, hbl⟩
        exact ⟨b, by simpa using hb, by omega⟩
      rcases collectFuel_rowStop bufs i bufs.length 0 fuel (by omega) hex (by omega) with
        ⟨w, hw, hwd, hwe⟩
      rw [List.drop_zero] at hw
      exact ⟨w, hw, hwd, hwe⟩

/-- Collecting from a fresh cursor with the canonical fuel realises
idealDrain whenever at least one channel exists. -/
theorem collect_start (bufs : List (Buffer T)) (hne : bufs ≠ []) :
    ∃ w, BuffVec.collectFuel (BuffVec.collectBound ⟨bufs, 0, 0⟩) ⟨bufs, 0, 0⟩ =
      Option.some (idealDrain bufs 0, w) ∧ w.data = bufs ∧
      ∃ b ∈ bufs, b.data.length ≤ w.inner_pointer := by
  have h := collectFuel_idealDrain bufs hne (buffersMaxLen bufs) 0
    (BuffVec.collectBound ⟨bufs, 0, 0⟩) (by omega) (by unfold BuffVec.collectBound; simp)
  exact h

/-- collect on a fresh cursor computes idealDrain. -/
theorem collect_eq_idealDrain (bufs : List (Buffer T)) (hne : bufs ≠ []) :
    BuffVec.collect ⟨bufs, 0, 0⟩ = Option.some (idealDrain bufs 0) := by
  rcases collect_start bufs hne with ⟨w, hw, -, -⟩
  unfold BuffVec.collect
  rw [hw]
  rfl

/-! ## The drain of a deinterlaced vector -/

/-- Division fact for the channel lengths of a deinterlaced multiple-length
input. -/
theorem strided_length_of_dvd (c n j : Nat) (hc : 1 ≤ c) (hj : j < c) :
    (n * c - j + (c - 1)) / c = n := by
  rcases Nat.eq_zero_or_pos n with rfl | hn
  · simp
    exact Nat.div_eq_of_lt (by omega)
  · have hcn : c ≤ n * c := by
      calc c = 1 * c := (Nat.one_mul c).symm
      _ ≤ n * c := Nat.mul_le_mul_right c hn
    have hr : n * c - j + (c - 1) = c * n + (c - 1 - j) := by
      have : n * c = c * n := Nat.mul_comm n c
      omega
    rw [hr, Nat.mul_add_div (by omega), Nat.div_eq_of_lt (by omega : c - 1 - j < c)]
    omega

/-- Every channel buffer of a deinterlaced input whose length is n * c has
length n. -/
theorem deinterlace_channel_lengths [Inhabited T] (data : List T) (c n : Nat) (hc : 1 ≤ c)
    (hlen : data.length = n * c) :
    ∀ b ∈ (deinterlacedVec data c).data, b.data.length = n := by
  intro b hb
  rcases List.mem_iff_getElem?.mp hb with ⟨j, hj⟩
  rw [deinterlacedVec_data_getElem?] at hj
  by_cases hjc : j < c
  · rw [if_pos hjc] at hj
    cases hj
    show (stepBy c (data.drop j)).length = n
    rw [stepBy_length c hc (data.drop j).length (data.drop j) (Nat.le_refl _)]
    rw [List.length_drop, hlen]
    exact strided_length_of_dvd c n j hc hjc
  · rw [if_neg hjc] at hj
    cases hj

/-- A successfully deinterlaced vector has c channels. -/
theorem deinterlace_length [Inhabited T] (data : List T) (c : Nat) :
    (deinterlacedVec data c).data.length = c :=
  (deinterlacedVec_shape data c).1

/-- Row i of the deinterlace loop over m blank channels starting at column
offset t is the contiguous slice of the input of length m starting at
i * c + t. -/
theorem deinterlaceRow (data : List T) (c : Nat) (hc : 1 ≤ c) (i : Nat) :
    ∀ (m t : Nat) (b0 : Buffer T), t + m + i * c ≤ data.length →
      (deinterlacedChannels data c t (List.replicate m b0)).filterMap
          (fun b => b.data[i]?) =
        (data.drop (i * c + t)).take m := by
  intro m
  induction m with
  | zero =>
    intro t b0 _
    simp [deinterlacedChannels]
  | succ m ih =>
    intro t b0 h
    rw [List.replicate_succ]
    show ((Buffer.write b0 (stepBy c (data.drop t)) ::
        deinterlacedChannels data c (t + 1) (List.replicate m b0)).filterMap
          (fun b => b.data[i]?)) = _
    have hidx : t + i * c < data.length := by omega
    have hhead : (Buffer.write b0 (stepBy c (data.drop t))).data[i]? =
        Option.some data[t + i * c] := by
      show (stepBy c (data.drop t))[i]? = _
      rw [stepBy_getElem? c hc i (data.drop t), List.getElem?_drop]
      exact List.getElem?_eq_getElem hidx
    rw [List.filterMap_cons, hhead]
    rw [ih (t + 1) b0 (by omega)]
    have hdropc : data.drop (i * c + t) = data[i * c + t] :: data.drop (i * c + t + 1) := by
      exact List.drop_eq_getElem_cons (by omega)
    rw [hdropc, List.take_succ_cons]
    have h1 : i * c + (t + 1) = i * c + t + 1 := by omega
    have h2 : data[t + i * c] = data[i * c + t] := by
      congr 1
      omega
    rw [h1, h2]

/-- Once the cursor row is at or past the end of every channel, the drain
yields nothing. -/
theorem idealDrain_stuck (bufs : List (Buffer T)) (i : Nat)
    (hstop : ∀ b ∈ bufs, b.data.length ≤ i) :
    idealDrain bufs i = [] := by
  rw [idealDrain, dif_neg]
  · unfold rowTaken
    cases bufs with
    | nil => rfl
    | cons b0 tl =>
      rw [List.takeWhile_cons]
      have h0 := hstop b0 (List.mem_cons_self b0 tl)
      simp [Nat.not_lt.mpr h0]
  · rintro ⟨hpos, hfull⟩
    cases bufs with
    | nil => simp at hpos
    | cons b0 tl =>
      have h0 := hstop b0 (List.mem_cons_self b0 tl)
      have h1 := hfull b0 (List.mem_cons_self b0 tl)
      omega

/-- idealDrain of the deinterlaced channels, started at row i, is the input
from position i * c on. -/
theorem idealDrain_deinterlace [Inhabited T] (data : List T) (c n : Nat) (hc : 1 ≤ c)
    (hlen : data.length = n * c) :
    ∀ (d i : Nat), n - i ≤ d → i ≤ n →
      idealDrain (deinterlacedVec data c).data i = data.drop (i * c) := by
  have hchan := deinterlace_channel_lengths data c n hc hlen
  have hblen := deinterlace_length (T := T) data c
  intro d
  induction d with
  | zero =>
    intro i hd hi
    have hin : i = n := by omega
    subst hin
    rw [idealDrain_stuck _ _ (fun b hb => by rw [hchan b hb]),
      List.drop_eq_nil_of_le (by rw [hlen])]
  | succ d ih
 =>
    intro i hd hi
    by_cases hin : i < n
    · have hne : (deinterlacedVec data c).data ≠ [] := by
        intro hnil
        rw [hnil] at hblen
        simp at hblen
        omega
      rw [idealDrain, dif_pos ⟨by omega, fun b hb => by rw [hchan b hb]; omega⟩]
      have hrow : (deinterlacedVec data c).data.filterMap (fun b => b.data[i]?) =
          (data.drop (i * c)).take c := by
        show (deinterlacedChannels data c 0 (BuffVec.new T c).data).filterMap
            (fun b => b.data[i]?) = _
        unfold BuffVec.new
        rw [deinterlaceRow data c hc i c 0 (Buffer.new T 0)
          (by
            have : (i + 1) * c ≤ n * c := Nat.mul_le_mul_right c (by omega)
            have hm : (i + 1) * c = i * c + c := by ring
            omega)]
        rw [Nat.add_zero]
      rw [hrow, ih (i + 1) (by omega) (by omega)]
      have hsplit : (data.drop (i * c)).take c ++ (data.drop (i * c)).drop c =
          data.drop (i * c) := List.take_append_drop c (data.drop (i * c))
      have hdd : (data.drop (i * c)).drop c = data.drop ((i + 1) * c) := by
        rw [List.drop_drop]
        congr 1
        ring
      rw [← hdd, hsplit]
    · have hin2 : i = n := by omega
      subst hin2
      rw [idealDrain_stuck _ _ (fun b hb => by rw [hchan b hb]),
        List.drop_eq_nil_of_le (by rw [hlen])]

/-! ## Exhaustion, divergence and size bounds of the iterator -/

/-- With no channels at all, get_next never returns: the source recursion
increments the row index and retries forever. -/
theorem getNextFuel_nil (v : BuffVec T) (hnil : v.data = []) :
    ∀ fuel, BuffVec.getNextFuel fuel v = Option.none := by
  intro fuel
  induction fuel generalizing v with
  | zero => rfl
  | succ fuel ih =>
    unfold BuffVec.getNextFuel
    have h0 : v.data[v.outer_pointer]? = Option.none := by
      rw [hnil]
      rfl
    rw [h0]
    exact ih _ hnil

/-- One next() call on a nonempty vector always succeeds with fuel 2, keeps
the channels, never moves the row index backwards, and from a state whose
row index is past the end of every channel it yields None and stays past the
end. -/
theorem getNextFuel_two (v : BuffVec T) (hne : v.data ≠ []) :
    ∃ o w, BuffVec.getNextFuel 2 v = Option.some (o, w) ∧ w.data = v.data ∧
      v.inner_pointer ≤ w.inner_pointer ∧
      ((∀ b ∈ v.data, b.data.length ≤ v.inner_pointer) → o = Option.none ∧
        (∀ b ∈ w.data, b.data.length ≤ w.inner_pointer)) := by
  rcases hj : v.data[v.outer_pointer]? with _ | buf
  · have h0lt : 0 < v.data.length := List.length_pos.mpr hne
    have h0 : v.data[(0 : Nat)]? = Option.some v.data[0] := List.getElem?_eq_getElem h0lt
    refine ⟨(v.data[0]).data[v.inner_pointer + 1]?,
      { v with inner_pointer := v.inner_pointer + 1, outer_pointer := 1 }, ?_, rfl,
      by dsimp only; omega, ?_⟩
    · unfold BuffVec.getNextFuel
      rw [hj]
      unfold BuffVec.getNextFuel
      simp only [h0]
    · intro hstop
      have hb0 : v.data[0] ∈ v.data := List.getElem_mem h0lt
      have hl := hstop v.data[0] hb0
      constructor
      · exact List.getElem?_eq_none_iff.mpr (by omega)
      · intro b hb
        have hbv : b ∈ v.data := hb
        have := hstop b hbv
        dsimp only
        omega
  · refine ⟨buf.data[v.inner_pointer]?, { v with outer_pointer := v.outer_pointer + 1 },
      ?_, rfl, by dsimp only; omega, ?_⟩
    · unfold BuffVec.getNextFuel
      rw [hj]
    · intro hstop
      have hmem : buf ∈ v.data := List.getElem?_mem hj
      have hl := hstop buf hmem
      refine ⟨List.getElem?_eq_none_iff.mpr (by omega), ?_⟩
      intro b hb
      have hbv : b ∈ v.data := hb
      have := hstop b hbv
      dsimp only
      omega

/-- A nonempty vector whose row index has passed the end of every channel is
exhausted: every future next() call yields None. -/
theorem exhausted_of_stuck (v : BuffVec T) (hne : v.data ≠ [])
    (hstop : ∀ b ∈ v.data, b.data.length ≤ v.inner_pointer) :
    v.exhausted := by
  intro n
  induction n generalizing v with
  | zero =>
    intro o ho
    simp [BuffVec.runNexts] at ho
  | succ n ih =>
    intro o ho
    rcases getNextFuel_two v hne with ⟨o2, w, hw, hwd, -, hprop⟩
    rcases hprop hstop with ⟨ho2, hwstop⟩
    unfold BuffVec.runNexts at ho
    rw [hw] at ho
    simp only [List.mem_cons] at ho
    rcases ho with rfl | ho
    · exact ho2
    · exact ih w (by rw [hwd]; exact hne) (by rw [hwd] at hwstop ⊢; exact hwstop) o ho

/-- The shortest channel is a lower bound for every channel length. -/
theorem buffersMinLen_le (bufs : List (Buffer T)) (b : Buffer T) (hb : b ∈ bufs) :
    buffersMinLen bufs ≤ b.data.length := by
  induction bufs with
  | nil => cases hb
  | cons hd tl ih =>
    cases tl with
    | nil =>
      rcases List.mem_cons.mp hb with rfl | hb2
      · exact Nat.le_refl _
      · cases hb2
    | cons hd2 tl2 =>
      rcases List.mem_cons.mp hb with rfl | hb2
      · exact Nat.min_le_left _ _
      · exact Nat.le_trans (Nat.min_le_right _ _) (ih hb2)

/-- Some channel realises the shortest length. -/
theorem buffersMinLen_mem (bufs : List (Buffer T)) (hne : bufs ≠ []) :
    ∃ b ∈ bufs, b.data.length = buffersMinLen bufs := by
  induction bufs with
  | nil => exact absurd rfl hne
  | cons hd tl ih =>
    cases tl with
    | nil => exact ⟨hd, List.mem_cons_self hd [], rfl⟩
    | cons hd2 tl2 =>
      rcases ih (by simp) with ⟨b, hb, hbl⟩
      rcases Nat.le_total hd.data.length (buffersMinLen (hd2 :: tl2)) with h | h
      · refine ⟨hd, List.mem_cons_self _ _, ?_⟩
        show hd.data.length = min hd.data.length (buffersMinLen (hd2 :: tl2))
        omega
      · refine ⟨b, List.mem_cons_of_mem hd hb, ?_⟩
        show b.data.length = min hd.data.length (buffersMinLen (hd2 :: tl2))
        omega

/-- takeWhile is a strict prefix as soon as one element fails the test. -/
theorem takeWhile_length_lt (p : α → Bool) :
    ∀ (l : List α), (∃ b ∈ l, p b = false) → (l.takeWhile p).length < l.length := by
  intro l
  induction l with
  | nil => rintro ⟨b, hb, -⟩; cases hb
  | cons a tl ih =>
    rintro ⟨b, hb, hpb⟩
    rw [List.takeWhile_cons]
    rcases hpa : p a with _ | _
    · simp
    · rcases List.mem_cons.mp hb with rfl | hb2
      · rw [hpa] at hpb; cases hpb
      · have hlt := ih ⟨b, hb2, hpb⟩
        simp only [hpa, eq_self_iff_true, if_true, List.length_cons]
        omega

/-- filterMap where every element maps to some keeps the length. -/
theorem length_filterMap_all_some (f : α → Option β) :
    ∀ (l : List α), (∀ a ∈ l, (f a).isSome) → (l.filterMap f).length = l.length := by
  intro l
  induction l with
  | nil => intro _; rfl
  | cons a tl ih =>
    intro h
    rw [List.filterMap_cons]
    rcases hfa : f a with _ | b
    · have := h a (List.mem_cons_self a tl)
      rw [hfa] at this
      cases this
    · simp only [List.length_cons]
      rw [ih (fun x hx => h x (List.mem_cons_of_mem a hx))]

/-- The drain never completes more rounds than the shortest channel has
samples: its total length stays below (shortest + 1) * channel count. -/
theorem idealDrain_length_lt (bufs : List (Buffer T)) (hne : bufs ≠ []) :
    ∀ (d i : Nat), buffersMinLen bufs - i ≤ d → i ≤ buffersMinLen bufs →
      (idealDrain bufs i).length < (buffersMinLen bufs + 1 - i) * bufs.length := by
  have hlenpos : 0 < bufs.length := by
    cases bufs with
    | nil => exact absurd rfl hne
    | cons b0 tl => simp
  intro d
  induction d with
  | zero =>
    intro i hd hi
    have hieq : i = buffersMinLen bufs := by omega
    subst hieq
    rcases buffersMinLen_mem bufs hne with ⟨b, hb, hbl⟩
    have hnotfull : ¬ (0 < bufs.length ∧ ∀ b2 ∈ bufs, buffersMinLen bufs < b2.data.length) := by
      rintro ⟨-, hfull⟩
      have := hfull b hb
      omega
    rw [idealDrain, dif_neg hnotfull]
    unfold rowTaken
    have h1 := takeWhile_length_lt (fun b2 => decide (buffersMinLen bufs < b2.data.length)) bufs
      ⟨b, hb, by simp [hbl]⟩
    have h2 := List.length_filterMap_le (fun b2 => b2.data[buffersMinLen bufs]?)
      (bufs.takeWhile (fun b2 => decide (buffersMinLen bufs < b2.data.length)))
    have h3 : (buffersMinLen bufs + 1 - buffersMinLen bufs) * bufs.length = bufs.length := by
      have : buffersMinLen bufs + 1 - buffersMinLen bufs = 1 := by omega
      rw [this, Nat.one_mul]
    omega
  | succ d ih =>
    intro i hd hi
    by_cases hilt : i < buffersMinLen bufs
    · have hfull : ∀ b ∈ bufs, i < b.data.length := by
        intro b hb
        have := buffersMinLen_le bufs b hb
        omega
      rw [idealDrain, dif_pos ⟨hlenpos, hfull⟩]
      rw [List.length_append]
      have hrow : (bufs.filterMap (fun b => b.data[i]?)).length = bufs.length := by
        apply length_filterMap_all_some
        intro b hb
        rw [List.getElem?_eq_getElem (hfull b hb)]
        rfl
      have hrec := ih (i + 1) (by omega) (by omega)
      have hsplit : (buffersMinLen bufs + 1 - i) * bufs.length =
          (buffersMinLen bufs + 1 - (i + 1)) * bufs.length + bufs.length := by
        have h1 : buffersMinLen bufs + 1 - i = (buffersMinLen bufs + 1 - (i + 1)) + 1 := by
          omega
        rw [h1, Nat.add_mul, Nat.one_mul]
      omega
    · have hieq : i = buffersMinLen bufs := by omega
      subst hieq
      rcases buffersMinLen_mem bufs hne with ⟨b, hb, hbl⟩
      have hnotfull : ¬ (0 < bufs.length ∧ ∀ b2 ∈ bufs, buffersMinLen bufs < b2.data.length) := by
        rintro ⟨-, hfull⟩
        have := hfull b hb
        omega
      rw [idealDrain, dif_neg hnotfull]
      unfold rowTaken
      have h1 := takeWhile_length_lt (fun b2 => decide (buffersMinLen bufs < b2.data.length)) bufs
        ⟨b, hb, by simp [hbl]⟩
      have h2 := List.length_filterMap_le (fun b2 => b2.data[buffersMinLen bufs]?)
        (bufs.takeWhile (fun b2 => decide (buffersMinLen bufs < b2.data.length)))
      have h3 : (buffersMinLen bufs + 1 - buffersMinLen bufs) * bufs.length = bufs.length := by
        have : buffersMinLen bufs + 1 - buffersMinLen bufs = 1 := by omega
        rw [this, Nat.one_mul]
      omega

/-! ## Claim theorems -/

/-- C1 counterexample: the empty input with channel count 2 satisfies the
claim hypotheses (2 ≥ 1 and 2 divides the length 0), yet deinterlace panics
in split_at at channel index 2 > 0 + 1 instead of producing a vector whose
drain returns the input. -/
theorem C1_roundtrip_counterexample :
    (1 : Nat) ≤ 2 ∧ 2 ∣ ([] : List Int).length ∧
      BuffVec.deinterlace ([] : List Int) 2 = PanicOr.panicked :=
  ⟨by omega, by decide, by decide⟩

/-- C1 amended: for every channel count c ≥ 1 that stays within input
length + 1 (so that no split_at call panics) and every interleaved sample
sequence whose length is a multiple of c, deinterlace completes and
collecting the iterator of the resulting vector (the interlace direction)
yields exactly the original sequence. -/
theorem C1_interlace_deinterlace_roundtrip (T : Type) [Inhabited T]
    (samples : List T) (c : Nat) (hc : 1 ≤ c) (hdvd : c ∣ samples.length)
    (hsafe : c ≤ samples.length + 1) :
    ∃ v, BuffVec.deinterlace samples c = PanicOr.value v ∧
      BuffVec.collect v = Option.some samples := by
  refine ⟨deinterlacedVec samples c, deinterlace_value samples c hsafe, ?_⟩
  have hlen := deinterlace_length (T := T) samples c
  have hne : (deinterlacedVec samples c).data ≠ [] := by
    intro h
    rw [h] at hlen
    simp at hlen
    omega
  have hn : samples.length = (samples.length / c) * c := (Nat.div_mul_cancel hdvd).symm
  have hideal := idealDrain_deinterlace samples c (samples.length / c) hc hn
    (samples.length / c) 0 (by simp) (Nat.zero_le _)
  have hvec : deinterlacedVec samples c =
      ⟨(deinterlacedVec samples c).data, 0, 0⟩ := rfl
  rw [hvec, collect_eq_idealDrain _ hne, hideal]
  simp

/-- C1 witness: a concrete stereo round trip. -/
theorem C1_roundtrip_witness :
    1 ≤ 2 ∧ 2 ∣ ([1, 2, 3, 4, 5, 6] : List Int).length ∧
      2 ≤ ([1, 2, 3, 4, 5, 6] : List Int).length + 1 ∧
      ∃ v, BuffVec.deinterlace ([1, 2, 3, 4, 5, 6] : List Int) 2 = PanicOr.value v ∧
        BuffVec.collect v = Option.some [1, 2, 3, 4, 5, 6] :=
  ⟨by omega, by decide, by decide,
    C1_interlace_deinterlace_roundtrip Int [1, 2, 3, 4, 5, 6] 2 (by omega) (by decide)
      (by decide)⟩

/-- C2 counterexample: with the one-sized input [0] and channel count 3 the
claim quantifies the property over this input, yet the source deinterlace
panics in split_at at channel index 2 > 1 before any channel contents
exist. -/
theorem C2_deinterlace_counterexample :
    (1 : Nat) ≤ 3 ∧ BuffVec.deinterlace ([0] : List Int) 3 = PanicOr.panicked :=
  ⟨by omega, by decide⟩

/-- C2 amended: whenever the channel count stays within input length + 1
(so that no split_at call panics), deinterlace completes and assigns to
channel i exactly every channel_count-th input sample starting at offset i:
reading channel i back through get_buffer, element j of the channel is
input element i + j * c, and the channel length counts exactly those source
positions. -/
theorem C2_deinterlace_channels (T : Type) [Inhabited T] (samples : List T)
    (c i : Nat) (hc : 1 ≤ c) (hi : i < c) (hsafe : c ≤ samples.length + 1) :
    ∃ v ch, BuffVec.deinterlace samples c = PanicOr.value v ∧
      v.get_buffer i = Except.ok ch ∧
      ch.length = (samples.length - i + (c - 1)) / c ∧
      ∀ j, ch[j]? = samples[i + j * c]? := by
  refine ⟨deinterlacedVec samples c, stepBy c (samples.drop i),
    deinterlace_value samples c hsafe, ?_, ?_, ?_⟩
  · unfold BuffVec.get_buffer
    rw [deinterlacedVec_data_getElem?, if_pos hi]
    rfl
  · rw [stepBy_length c hc (samples.drop i).length _ (Nat.le_refl _), List.length_drop]
  · intro j
    rw [stepBy_getElem? c hc j (samples.drop i), List.getElem?_drop]

/-- C2 witness: the 20-element specification example with c = 10 at channel
3. -/
theorem C2_deinterlace_witness :
    ∃ v ch, BuffVec.deinterlace
          ([0, 1, 2, 3, 4, 5, 6, 7, 8, 9, 0, 1, 2, 3, 4, 5, 6, 7, 8, 9] : List Int)
          10 = PanicOr.value v ∧
      v.get_buffer 3 = Except.ok ch ∧
      ch.length = (([0, 1, 2, 3, 4, 5, 6, 7, 8, 9, 0, 1, 2, 3, 4, 5, 6, 7, 8, 9] :
          List Int).length - 3 + (10 - 1)) / 10 ∧
      ∀ j, ch[j]? =
        ([0, 1, 2, 3, 4, 5, 6, 7, 8, 9, 0, 1, 2, 3, 4, 5, 6, 7, 8, 9] : List Int)[3 + j * 10]? :=
  C2_deinterlace_channels Int _ 10 3 (by omega) (by omega) (by decide)

/-- C6: the gain pass maps a buffer s to the buffer of elementwise products
s[i] * g (f32 arithmetic modelled exactly over the rationals); gain 0 yields
the all-zero buffer and gain 1 changes nothing. -/
theorem C6_gain (s : List Rat) (g : Rat) :
    (∀ i : Nat, (applyGain g s)[i]? = s[i]?.map (fun x => x * g)) ∧
      applyGain (0 : Rat) s = List.replicate s.length 0 ∧
      applyGain (1 : Rat) s = s := by
  refine ⟨?_, ?_, ?_⟩
  · intro i
    unfold applyGain
    exact List.getElem?_map _ s i
  · unfold applyGain
    have h : (fun x : Rat => x * 0) = fun _ : Rat => (0 : Rat) := by
      funext x
      exact mul_zero x
    rw [h]
    exact List.map_const' s 0
  · unfold applyGain
    simp [mul_one]

/-- C7: get_buffer on a Buffer Vector with k channels succeeds with a copy
of the channel samples for every index below k and fails with the
out-of-bounds error for every index at or past k; the vector is taken by
shared reference, so the embedding is a pure function and the vector cannot
change. -/
theorem C7_get_buffer (T : Type) (v : BuffVec T) (index : Nat) :
    (index < v.data.length →
      ∃ b, v.data[index]? = Option.some b ∧ v.get_buffer index = Except.ok b.read) ∧
      (v.data.length ≤ index → v.get_buffer index = Except.error "out of bounds read") := by
  constructor
  · intro hlt
    refine ⟨v.data[index], List.getElem?_eq_getElem hlt, ?_⟩
    unfold BuffVec.get_buffer
    rw [List.getElem?_eq_getElem hlt]
  · intro hge
    unfold BuffVec.get_buffer
    rw [List.getElem?_eq_none_iff.mpr hge]

/-- C7 witness: reads at a valid and an invalid index of a concrete
two-channel vector (the channels a stereo deinterlace of [1, 2, 3, 4]
produces). -/
theorem C7_get_buffer_witness :
    (⟨[⟨[1, 3]⟩, ⟨[2, 4]⟩], 0, 0⟩ : BuffVec Int).get_buffer 1 = Except.ok [2, 4] ∧
      (⟨[⟨[1, 3]⟩, ⟨[2, 4]⟩], 0, 0⟩ : BuffVec Int).get_buffer 2 =
        Except.error "out of bounds read" := by
  have h := C7_get_buffer Int (⟨[⟨[1, 3]⟩, ⟨[2, 4]⟩], 0, 0⟩ : BuffVec Int)
  constructor
  · rcases (h 1).1 (by decide) with ⟨b, hb, hread⟩
    have hb2 : (⟨[⟨[1, 3]⟩, ⟨[2, 4]⟩], 0, 0⟩ : BuffVec Int).data[1]? =
        Option.some ⟨[2, 4]⟩ := by decide
    rw [hb] at hb2
    cases hb2
    rw [hread]
    rfl
  · exact (h 2).2 (by decide)

/-- C10: every set message rewrites exactly its own field and nothing else
(the record update keeps every other field of the state), with no reply;
every get message replies the current value of its field and leaves the
whole state unchanged. -/
theorem C10_get_set_frame (F : Type) (st : ChannelState F) (n : String) (vol pan : F)
    (io io2 : AudioIO) :
    channelStep st (ChannelMessage.setName n) = ({ st with name := n }, Option.none) ∧
      channelStep st (ChannelMessage.setVolume vol) =
        ({ st with volume := vol }, Option.none) ∧
      channelStep st (ChannelMessage.setPanning pan) =
        ({ st with panning := pan }, Option.none) ∧
      channelStep st (ChannelMessage.setInput io) = ({ st with input := io }, Option.none) ∧
      channelStep st (ChannelMessage.setOutput io2) =
        ({ st with output := io2 }, Option.none) ∧
      channelStep st ChannelMessage.getName = (st, Option.some (ChannelReply.name st.name)) ∧
      channelStep st ChannelMessage.getVolume =
        (st, Option.some (ChannelReply.volume st.volume)) ∧
      channelStep st ChannelMessage.getPanning =
        (st, Option.some (ChannelReply.panning st.panning)) ∧
      channelStep st ChannelMessage.getInput =
        (st, Option.some (ChannelReply.input st.input)) ∧
      channelStep st ChannelMessage.getOutput =
        (st, Option.some (ChannelReply.output st.output)) :=
  ⟨rfl, rfl, rfl, rfl, rfl, rfl, rfl, rfl, rfl, rfl⟩

/-- C3 (code bug): with input routing None, process_audio reads no channel
buffer and forwards nothing, and the actor state survives unchanged — but
not as a clean no-op: the source matches the routing to Option::None and
immediately unwraps it, so the spawn_blocking closure panics (the panic is
then thrown away with the discarded join result). -/
theorem C3_none_input_panics (F : Type) [Mul F] (st : ChannelState F)
    (hin : st.input = AudioIO.none) (data : BuffVec F) (fresh : Sink) :
    handleNewBuffer st data fresh = (st, TaskStep.panicked) := by
  unfold handleNewBuffer processAudioTask selectInput
  rw [hin]
  rfl

/-- C3 witness: a fresh channel (input defaults to None) panics its
processing task on any incoming buffer. -/
theorem C3_none_input_witness :
    handleNewBuffer (ChannelState.new : ChannelState Rat) (BuffVec.new Rat 2) ⟨0, false⟩ =
      (ChannelState.new, TaskStep.panicked) :=
  C3_none_input_panics Rat ChannelState.new rfl (BuffVec.new Rat 2) ⟨0, false⟩

/-- Full characterisation of the overdub loop: the status reports the error
exactly when the operand runs out before the buffer does, and the contents
after the call are the elementwise sums as far as the operand reached,
followed by the untouched tail. -/
theorem overdubLoop_spec (T : Type) [Add T] (data : List T) :
    ∀ (bl : List T) (i : Nat),
      (Buffer.overdubLoop data i bl).1 =
          (if bl.length ≤ data.length - i then Except.ok ()
            else Except.error "mismatched buffer size") ∧
        (Buffer.overdubLoop data i bl).2 =
          List.zipWith (fun s d => s + d) bl (data.drop i) ++ bl.drop (data.length - i) := by
  intro bl
  induction bl with
  | nil =>
    intro i
    constructor
    · simp [Buffer.overdubLoop]
    · simp [Buffer.overdubLoop]
  | cons s rest ih =>
    intro i
    rcases hdi : data[i]? with _ | d
    · have hge : data.length ≤ i := List.getElem?_eq_none_iff.mp hdi
      have hloop : Buffer.overdubLoop data i (s :: rest) =
          (Except.error "mismatched buffer size", s :: rest) := by
        unfold Buffer.overdubLoop
        rw [hdi]
      rw [hloop]
      constructor
      · rw [if_neg]
        simp only [List.length_cons]
        omega
      · rw [List.drop_eq_nil_of_le hge]
        have h0 : data.length - i = 0 := by omega
        rw [h0]
        simp
    · have hlt : i < data.length := by
        by_contra hc
        rw [List.getElem?_eq_none_iff.mpr (by omega)] at hdi
        cases hdi
      have hloop : Buffer.overdubLoop data i (s :: rest) =
          ((Buffer.overdubLoop data (i + 1) rest).1,
            (s + d) :: (Buffer.overdubLoop data (i + 1) rest).2) := by
        conv_lhs => unfold Buffer.overdubLoop
        rw [hdi]
      rw [hloop]
      rcases ih (i + 1) with ⟨ih1, ih2⟩
      constructor
      · rw [ih1]
        by_cases hle : rest.length ≤ data.length - (i + 1)
        · rw [if_pos hle, if_pos (by simp only [List.length_cons]; omega)]
        · rw [if_neg hle, if_neg (by simp only [List.length_cons]; omega)]
      · rw [ih2, drop_cons_of_getElem? data i d hdi]
        have hsub : data.length - i = (data.length - (i + 1)) + 1 := by omega
        rw [hsub]
        rfl

/-- C4 counterexample: overdubbing the length-2 buffer [1, 2] with the
shorter operand [5] returns the mismatched-size error yet leaves the buffer
mutated to [6, 2], and overdubbing with the longer operand [5, 6, 7] of
mismatched length succeeds — against the claim that any length mismatch
fails and leaves the buffer untouched. -/
theorem C4_overdub_counterexample :
    (Buffer.overdub (⟨[1, 2]⟩ : Buffer Int) [5]).1 =
        Except.error "mismatched buffer size" ∧
      (Buffer.overdub (⟨[1, 2]⟩ : Buffer Int) [5]).2 = ⟨[6, 2]⟩ ∧
      (⟨[6, 2]⟩ : Buffer Int) ≠ ⟨[1, 2]⟩ ∧
      (Buffer.overdub (⟨[1, 2]⟩ : Buffer Int) [5, 6, 7]).1 = Except.ok () :=
  ⟨rfl, rfl, by decide, rfl⟩

/-- C4 amended: _overdub fails with the MismatchedBufferSize error exactly
when the operand is shorter than the buffer (a longer operand succeeds, its
extra elements ignored), and the buffer after the call always holds the
elementwise sums as far as the operand reached followed by the original
tail — so a failing call leaves the already visited prefix mutated. -/
theorem C4_overdub_amended (T : Type) [Add T] (b : Buffer T) (data : List T) :
    ((Buffer.overdub b data).1 =
        if b.data.length ≤ data.length then Except.ok ()
        else Except.error "mismatched buffer size") ∧
      (Buffer.overdub b data).2.data =
        List.zipWith (fun s d => s + d) b.data data ++ b.data.drop data.length := by
  rcases overdubLoop_spec T data b.data 0 with ⟨h1, h2⟩
  constructor
  · show (Buffer.overdubLoop data 0 b.data).1 = _
    rw [h1, Nat.sub_zero]
  · show (Buffer.overdubLoop data 0 b.data).2 = _
    rw [h2, Nat.sub_zero, List.drop_zero]

/-- C5 counterexample, both failing parts of the claim: the zero-channel
vector BuffVec::new(0) makes get_next recurse forever whatever depth is
allowed, so consuming its iterator does not terminate (collect runs out of
any fuel); and with the unequal-length channels [1] and [2, 3] the iterator
yields None after draining two samples and then yields Some 3 again, so a
fully drained iterator is restartable when the channel lengths differ. -/
theorem C5_iteration_counterexample :
    (BuffVec.getNextDiverges (BuffVec.new Int 0) ∧
      BuffVec.collect (BuffVec.new Int 0) = Option.none) ∧
      (BuffVec.runNexts 4 (⟨[⟨[1]⟩, ⟨[2, 3]⟩], 0, 0⟩ : BuffVec Int)).1 =
        [Option.some 1, Option.some 2, Option.none, Option.some 3] :=
  ⟨⟨fun fuel => getNextFuel_nil _ rfl fuel, rfl⟩, by decide⟩

/-- C5 amended: for a Buffer Vector with at least one channel and a fresh
cursor, the drain terminates (the canonical fuel suffices), the number of
complete channel-major rounds is bounded by the shortest channel length,
and — with the equal-length invariant in force — the fully drained iterator
is exhausted: every later next() call yields None.  (With zero channels the
iteration diverges, and with unequal channel lengths a drained iterator can
yield again after a None.) -/
theorem C5_iteration_amended (T : Type) (bufs : List (Buffer T)) (hne : bufs ≠ []) :
    ∃ out w,
      BuffVec.collectFuel (BuffVec.collectBound ⟨bufs, 0, 0⟩) ⟨bufs, 0, 0⟩ =
          Option.some (out, w) ∧
        BuffVec.collect ⟨bufs, 0, 0⟩ = Option.some out ∧
        out.length / bufs.length ≤ buffersMinLen bufs ∧
        ∀ m, (∀ b ∈ bufs, b.data.length = m) → BuffVec.exhausted w := by
  rcases collect_start bufs hne with ⟨w, hw, hwd, hwe⟩
  have hlenpos : 0 < bufs.length := List.length_pos.mpr hne
  refine ⟨idealDrain bufs 0, w, hw, ?_, ?_, ?_⟩
  · unfold BuffVec.collect
    rw [hw]
    rfl
  · have hlt := idealDrain_length_lt bufs hne (buffersMinLen bufs) 0 (by simp) (Nat.zero_le _)
    have h2 : (idealDrain bufs 0).length < (buffersMinLen bufs + 1) * bufs.length := by
      simpa using hlt
    exact Nat.lt_succ_iff.mp ((Nat.div_lt_iff_lt_mul hlenpos).mpr h2)
  · intro m hm
    apply exhausted_of_stuck w (by rw [hwd]; exact hne)
    rcases hwe with ⟨b, hb, hbl⟩
    intro b2 hb2
    rw [hwd] at hb2
    have h1 := hm b hb
    have h2 := hm b2 hb2
    omega

/-- C5 witness: a concrete two-channel drain. -/
theorem C5_iteration_witness :
    ∃ out w,
      BuffVec.collectFuel (BuffVec.collectBound ⟨[⟨[1, 2]⟩, ⟨[3, 4]⟩], 0, 0⟩)
          (⟨[⟨[1, 2]⟩, ⟨[3, 4]⟩], 0, 0⟩ : BuffVec Int) = Option.some (out, w) ∧
        BuffVec.collect (⟨[⟨[1, 2]⟩, ⟨[3, 4]⟩], 0, 0⟩ : BuffVec Int) = Option.some out ∧
        out.length / ([⟨[1, 2]⟩, ⟨[3, 4]⟩] : List (Buffer Int)).length ≤
          buffersMinLen [⟨[1, 2]⟩, ⟨[3, 4]⟩] ∧
        ∀ m, (∀ b ∈ ([⟨[1, 2]⟩, ⟨[3, 4]⟩] : List (Buffer Int)), b.data.length = m) →
          BuffVec.exhausted w :=
  C5_iteration_amended Int [⟨[1, 2]⟩, ⟨[3, 4]⟩] (by simp)

/-- C8 counterexample: deinterlacing the length-3 input [0, 1, 2] over 2
channels produces the channels [0, 2] and [1] of different lengths, so
deinterlace with an arbitrary input length does not preserve the
equal-length invariant of the Buffer Vector. -/
theorem C8_invariant_counterexample :
    BuffVec.deinterlace ([0, 1, 2] : List Int) 2 =
        PanicOr.value ⟨[⟨[0, 2]⟩, ⟨[1]⟩], 0, 0⟩ ∧
      ¬ BuffVec.uniformLengths (⟨[⟨[0, 2]⟩, ⟨[1]⟩], 0, 0⟩ : BuffVec Int) := by
  constructor
  · decide
  · rintro ⟨m, hm⟩
    have h0 := hm ⟨[0, 2]⟩ (by decide)
    have h1 := hm ⟨[1]⟩ (by decide)
    simp at h0 h1
    omega

/-- Channel j of a successfully deinterlaced vector together with its
length. -/
theorem deinterlace_channel_len [Inhabited T] (data : List T) (c j : Nat)
    (hc : 1 ≤ c) (hj : j < c) :
    ∃ b, (deinterlacedVec data c).data[j]? = Option.some b ∧
      b.data.length = (data.length - j + (c - 1)) / c := by
  rw [deinterlacedVec_data_getElem?, if_pos hj]
  refine ⟨⟨stepBy c (data.drop j)⟩, rfl, ?_⟩
  show (stepBy c (data.drop j)).length = _
  rw [stepBy_length c hc _ _ (Nat.le_refl _), List.length_drop]

/-- C8 amended: BuffVec::new establishes the invariant (every channel is
empty).  deinterlace only produces a vector when the channel count stays
within input length + 1 — past that it panics in split_at — and the vector
it produces satisfies the invariant exactly when the input length is a
multiple of the channel count (otherwise the leading channels are one sample
longer).  Buffer::write replaces the contents wholesale, so it preserves the
invariant exactly when the written data has the common length. -/
theorem C8_invariant_amended (T : Type) [Inhabited T] :
    (∀ c : Nat, BuffVec.uniformLengths (BuffVec.new T c)) ∧
      (∀ (data : List T) (c : Nat), 1 ≤ c → c ≤ data.length + 1 →
        ∃ v, BuffVec.deinterlace data c = PanicOr.value v ∧
          (BuffVec.uniformLengths v ↔ c ∣ data.length)) ∧
      (∀ (data : List T) (c : Nat), data.length + 1 < c →
        BuffVec.deinterlace data c = PanicOr.panicked) ∧
      ∀ (b : Buffer T) (d : List T), (Buffer.write b d).data = d := by
  refine ⟨?_, ?_, fun data c hbig => deinterlace_panics data c hbig, fun b d => rfl⟩
  · intro c
    refine ⟨0, ?_⟩
    intro b hb
    have hbe := List.eq_of_mem_replicate hb
    subst hbe
    rfl
  · intro data c hc hsafe
    refine ⟨deinterlacedVec data c, deinterlace_value data c hsafe, ?_⟩
    constructor
    · rintro ⟨m, hm⟩
      by_contra hndvd
      have hr1 : data.length % c ≠ 0 := fun h => hndvd (Nat.dvd_of_mod_eq_zero h)
      have hrlt : data.length % c < c := Nat.mod_lt _ (by omega)
      rcases deinterlace_channel_len data c 0 hc (by omega) with ⟨b0, hb0, hl0⟩
      rcases deinterlace_channel_len data c (data.length % c) hc hrlt with ⟨br, hbr, hlr⟩
      have hm0 := hm b0 (List.getElem?_mem hb0)
      have hmr := hm br (List.getElem?_mem hbr)
      have hdm := Nat.div_add_mod data.length c
      have e0 : (data.length - 0 + (c - 1)) / c = data.length / c + 1 := by
        rw [Nat.sub_zero]
        have h1 : data.length + (c - 1) =
            c * (data.length / c) + (data.length % c + (c - 1)) := by omega
        rw [h1, Nat.mul_add_div (by omega)]
        have h2 : (data.length % c + (c - 1)) / c = 1 :=
          Nat.div_eq_of_lt_le (by omega) (by omega)
        omega
      have er : (data.length - data.length % c + (c - 1)) / c = data.length / c := by
        have h1 : data.length - data.length % c + (c - 1) =
            c * (data.length / c) + (c - 1) := by omega
        rw [h1, Nat.mul_add_div (by omega), Nat.div_eq_of_lt (by omega : c - 1 < c)]
        omega
      omega
    · intro hdvd
      exact ⟨data.length / c, deinterlace_channel_lengths data c (data.length / c) hc
        (Nat.div_mul_cancel hdvd).symm⟩

/-- C8 witness: the invariant holds for a fresh vector and for an
even-length deinterlace, and write replaces the contents. -/
theorem C8_invariant_witness :
    BuffVec.uniformLengths (BuffVec.new Int 3) ∧
      (∃ v, BuffVec.deinterlace ([1, 2, 3, 4] : List Int) 2 = PanicOr.value v ∧
        (BuffVec.uniformLengths v ↔ 2 ∣ ([1, 2, 3, 4] : List Int).length)) ∧
      BuffVec.deinterlace ([] : List Int) 3 = PanicOr.panicked ∧
      (Buffer.write (⟨[1, 2]⟩ : Buffer Int) [7]).data = [7] := by
  have h := C8_invariant_amended Int
  exact ⟨h.1 3, h.2.1 [1, 2, 3, 4] 2 (by omega) (by decide),
    h.2.2.1 [] 3 (by decide), h.2.2.2 ⟨[1, 2]⟩ [7]⟩

/-- C9: with a closed output sink, forwarding a processed batch delivers no
Overdub anywhere (the batch is dropped and not retried); instead the closure
sends exactly one GetOutputSystem lookup to the core bus followed by one
SetOuptutSystem message to the channel itself carrying the freshly obtained
handle, and the channel actor processing that message stores the fresh
handle in its output_system field, leaving every other field unchanged. -/
theorem C9_sink_reconnect (F : Type) (samples : List F) (tx : Sink)
    (hclosed : tx.closed = true) (fresh : Sink) (st : ChannelState F) :
    forwardOutput (Option.some tx) samples fresh =
        [SentMessage.getOutputSystem, SentMessage.setOuptutSystemSelf fresh] ∧
      (∀ out, SentMessage.overdub out ∉ forwardOutput (Option.some tx) samples fresh) ∧
      channelStep st (ChannelMessage.setOuptutSystem fresh) =
        ({ st with output_system := Option.some fresh }, Option.none) := by
  have h1 : forwardOutput (Option.some tx) samples fresh =
      [SentMessage.getOutputSystem, SentMessage.setOuptutSystemSelf fresh] := by
    show (if tx.closed = true
        then [SentMessage.getOutputSystem, SentMessage.setOuptutSystemSelf fresh]
        else [SentMessage.overdub samples]) =
      [SentMessage.getOutputSystem, SentMessage.setOuptutSystemSelf fresh]
    simp [hclosed]
  refine ⟨h1, ?_, rfl⟩
  intro out hmem
  rw [h1] at hmem
  rcases List.mem_cons.mp hmem with h | h
  · cases h
  · rcases List.mem_cons.mp h with h2 | h2
    · cases h2
    · cases h2

/-- C9 witness: a concrete closed sink and fresh replacement handle. -/
theorem C9_sink_reconnect_witness :
    forwardOutput (Option.some ⟨0, true⟩) ([1] : List Rat) ⟨1, false⟩ =
        [SentMessage.getOutputSystem, SentMessage.setOuptutSystemSelf ⟨1, false⟩] ∧
      (∀ out, SentMessage.overdub out ∉
        forwardOutput (Option.some ⟨0, true⟩) ([1] : List Rat) ⟨1, false⟩) ∧
      channelStep (ChannelState.new : ChannelState Rat)
          (ChannelMessage.setOuptutSystem ⟨1, false⟩) =
        ({ ChannelState.new with output_system := Option.some ⟨1, false⟩ }, Option.none) :=
  C9_sink_reconnect Rat [1] ⟨0, true⟩ rfl ⟨1, false⟩ ChannelState.new
